import Mathlib

/-!
Verification of the Pathfinder risk-aware route planner core.

Shallow embedding of `src/pathfinder/bayesian.py` and
`src/pathfinder/risk_tsp.py`.  Real-valued (pandas / Python float)
arithmetic is modelled over `ℚ`.  A Python function that can raise an
exception (IndexError on list indexing) is modelled as returning an
`Option`, with `none` standing for the raised exception.
-/

namespace Pathfinder

/-! ### Embedding of `src/pathfinder/bayesian.py` -/

/-- The posterior-mean rate expression
`(alpha + total_events) / (beta + months)` appearing in
`estimate_event_rate` (`bayesian.py`, line 31). -/
def pred_rate_fn (alpha beta s : ℚ) (m : ℕ) : ℚ :=
  (alpha + s) / (beta + (m : ℚ))

variable {K : Type} [DecidableEq K]

/-- Number of rows of `df` whose `admin2` key equals `r`: the `months="count"`
aggregate of `df.groupby("admin2")` in `estimate_event_rate`.  The `admin2`
column (a pandas object column of strings) is modelled by an arbitrary type
`K` with decidable equality. -/
def regionMonths (df : List (K × ℚ)) (r : K) : ℕ :=
  (df.filter (fun p => decide (p.1 = r))).length

/-- Sum of the `events` values over the rows of `df` with `admin2` key `r`:
the `total_events="sum"` aggregate of `df.groupby("admin2")`. -/
def regionTotal (df : List (K × ℚ)) (r : K) : ℚ :=
  ((df.filter (fun p => decide (p.1 = r))).map Prod.snd).sum

/-- One output row of `estimate_event_rate`: columns
`admin2, months, total_events, pred_rate`. -/
structure RateRow (K : Type) where
  admin2 : K
  months : ℕ
  total_events : ℚ
  pred_rate : ℚ
deriving DecidableEq, Repr

/-- `estimate_event_rate(df, alpha, beta)` (`bayesian.py`, lines 23-34):
group `df` by `admin2`, aggregate `months = count`, `total_events = sum`,
and set `pred_rate = (alpha + total_events) / (beta + months)`.
No validation of `alpha` or `beta` is performed by the source.
The group keys are the distinct `admin2` values of `df`; pandas emits the
groups sorted by key, which is modelled here as first-occurrence order
(`dedup`) since no claim depends on the row order of the output. -/
def estimate_event_rate (df : List (K × ℚ)) (alpha beta : ℚ) : List (RateRow K) :=
  ((df.map Prod.fst).dedup).map (fun r =>
    { admin2 := r
      months := regionMonths df r
      total_events := regionTotal df r
      pred_rate := pred_rate_fn alpha beta (regionTotal df r) (regionMonths df r) })

/-! ### Embedding of the risk columns (`risk_tsp.py` line 46, `bayesian.py` line 61) -/

/-- pandas `Series.replace({0: 1})` applied to the `length_m` column:
a value equal to exactly `0` becomes `1`; every other value is unchanged. -/
def replaceZeroOne (x : ℚ) : ℚ :=
  if x = 0 then 1 else x

/-- The `risk` column of `fetch_road_risk` (`risk_tsp.py`, line 46):
`df["events"] / df["length_m"].replace({0: 1})`. -/
def fetch_road_risk_score (events length_m : ℚ) : ℚ :=
  events / replaceZeroOne length_m

/-- The `risk` column of `road_segment_risk` (`bayesian.py`, line 61):
`df["pred_rate"].fillna(0) / df["length_m"].replace({0: 1})`.  The
`pred_rate` of a segment whose region join failed is NaN, modelled as
`none`; `fillna(0)` is `Option.getD 0`. -/
def road_segment_risk_score (pred_rate : Option ℚ) (length_m : ℚ) : ℚ :=
  (pred_rate.getD 0) / replaceZeroOne length_m

/-! ### Claims C1, C4, C8 (estimator), C5 (risk scorers) -/

/-- Claim C1: for every input table of region-month event counts and
hyperparameters `alpha`, `beta`, `estimate_event_rate` produces, for each
region, `predicted_rate = (alpha + s) / (beta + m)` where `m` is the number
of observed months for that region and `s` is the sum of its events across
those months. -/
theorem estimate_event_rate_formula {K : Type} [DecidableEq K]
    (df : List (K × ℚ)) (alpha beta : ℚ) (r : K) (hr : r ∈ df.map Prod.fst) :
    ({ admin2 := r, months := regionMonths df r, total_events := regionTotal df r,
       pred_rate := (alpha + regionTotal df r) / (beta + (regionMonths df r : ℚ)) } : RateRow K)
      ∈ estimate_event_rate df alpha beta ∧
    ∀ row ∈ estimate_event_rate df alpha beta,
      row.pred_rate
        = (alpha + regionTotal df row.admin2) / (beta + (regionMonths df row.admin2 : ℚ)) := by
  constructor
  · have hr2 : r ∈ (df.map Prod.fst).dedup := List.mem_dedup.mpr hr
    simpa [estimate_event_rate, pred_rate_fn] using
      List.mem_map_of_mem (fun r =>
        ({ admin2 := r, months := regionMonths df r, total_events := regionTotal df r,
           pred_rate := pred_rate_fn alpha beta (regionTotal df r) (regionMonths df r) }
          : RateRow K)) hr2
  · intro row hrow
    simp only [estimate_event_rate, List.mem_map] at hrow
    obtain ⟨a, _, rfl⟩ := hrow
    rfl

/-- Witness for C1 on a concrete table: the single region `0` with one
observed month of `3` events gets rate `(1 + 3) / (1 + 1) = 2`. -/
theorem estimate_event_rate_formula_witness :
    ({ admin2 := 0, months := 1, total_events := 3, pred_rate := 2 } : RateRow ℕ)
      ∈ estimate_event_rate [((0 : ℕ), (3 : ℚ))] 1 1 := by
  have hm : regionMonths [((0 : ℕ), (3 : ℚ))] 0 = 1 := rfl
  have ht : regionTotal [((0 : ℕ), (3 : ℚ))] 0 = 3 := by simp [regionTotal]
  have h := (estimate_event_rate_formula [((0 : ℕ), (3 : ℚ))] 1 1 0 (by decide)).1
  rw [hm, ht] at h
  norm_num at h
  exact h

/-- Claim C4: for `alpha, beta > 0` and non-negative event counts every
predicted rate is strictly positive, and the rate expression is monotone
non-decreasing in the event total `s` (months fixed) and monotone
non-increasing in the number of observed months (total fixed). -/
theorem pred_rate_pos_monotone {K : Type} [DecidableEq K]
    (alpha beta s s2 : ℚ) (m m2 : ℕ) (df : List (K × ℚ))
    (ha : 0 < alpha) (hb : 0 < beta) (hev : ∀ p ∈ df, 0 ≤ p.2)
    (hs : 0 ≤ s) (hss : s ≤ s2) (hmm : m ≤ m2) :
    (∀ row ∈ estimate_event_rate df alpha beta, 0 < row.pred_rate) ∧
    pred_rate_fn alpha beta s m ≤ pred_rate_fn alpha beta s2 m ∧
    pred_rate_fn alpha beta s m2 ≤ pred_rate_fn alpha beta s m := by
  have hden : ∀ k : ℕ, (0 : ℚ) < beta + k := fun k =>
    add_pos_of_pos_of_nonneg hb (by positivity)
  refine ⟨?_, ?_, ?_⟩
  · intro row hrow
    simp only [estimate_event_rate, List.mem_map] at hrow
    obtain ⟨a, _, rfl⟩ := hrow
    have htot : 0 ≤ regionTotal df a := by
      apply List.sum_nonneg
      intro x hx
      simp only [regionTotal, List.mem_map] at hx
      obtain ⟨p, hp, rfl⟩ := hx
      exact hev p (List.mem_of_mem_filter hp)
    exact div_pos (by linarith) (hden _)
  · rw [pred_rate_fn, pred_rate_fn, div_le_div_iff₀ (hden m) (hden m)]
    exact mul_le_mul_of_nonneg_right (by linarith) (le_of_lt (hden m))
  · rw [pred_rate_fn, pred_rate_fn, div_le_div_iff₀ (hden m2) (hden m)]
    refine mul_le_mul_of_nonneg_left ?_ (by linarith)
    have : (m : ℚ) ≤ (m2 : ℚ) := by exact_mod_cast hmm
    linarith

/-- Witness for C4 at `alpha = beta = 1`, the table `[(0, 2)]`,
`s = 0 ≤ s2 = 2`, `m = 1 ≤ m2 = 2`. -/
theorem pred_rate_pos_monotone_witness :
    (∀ row ∈ estimate_event_rate [((0 : ℕ), (2 : ℚ))] 1 1, 0 < row.pred_rate) ∧
    pred_rate_fn 1 1 0 1 ≤ pred_rate_fn 1 1 2 1 ∧
    pred_rate_fn 1 1 0 2 ≤ pred_rate_fn 1 1 0 1 :=
  pred_rate_pos_monotone 1 1 0 2 1 2 [((0 : ℕ), (2 : ℚ))]
    (by norm_num) (by norm_num) (by decide) (by norm_num) (by norm_num) (by norm_num)

/-- Claim C8, counterexample: `estimate_event_rate` performs no validation of
`alpha ≤ 0`.  At `alpha = -2`, `beta = 1` and the one-row table `[(0, 0)]` it
returns a normal output row with rate `(-2 + 0) / (1 + 1) = -1` instead of
failing with an input-validation error (no error path exists in the source). -/
theorem estimate_event_rate_accepts_nonpositive_alpha :
    estimate_event_rate [((0 : ℕ), (0 : ℚ))] (-2) 1
      = [{ admin2 := 0, months := 1, total_events := 0, pred_rate := -1 }] := by
  norm_num [estimate_event_rate, regionMonths, regionTotal, pred_rate_fn,
    List.dedup_cons_of_not_mem]

/-- Claim C8 as amended: the estimator performs no hyperparameter validation
(any `alpha`, `beta`, including non-positive values, are accepted and the
posterior-mean formula is applied to every region), and its output table is
empty exactly when the input region table is empty — an empty input yields an
empty output rather than an error. -/
theorem estimate_event_rate_no_validation {K : Type} [DecidableEq K]
    (alpha beta : ℚ) (df : List (K × ℚ)) :
    (estimate_event_rate df alpha beta = [] ↔ df = []) ∧
    ∀ row ∈ estimate_event_rate df alpha beta,
      row.pred_rate
        = pred_rate_fn alpha beta (regionTotal df row.admin2) (regionMonths df row.admin2) := by
  constructor
  · simp [estimate_event_rate, List.map_eq_nil_iff, List.dedup_eq_nil]
  · intro row hrow
    simp only [estimate_event_rate, List.mem_map] at hrow
    obtain ⟨a, _, rfl⟩ := hrow
    rfl

/-- Claim C5, counterexample: the scorers divide by
`length_m.replace({0: 1})`, not by `max(length_m, 1.0)`.  At
`event_count = 1`, `length_m = 1/2` the code yields risk `2`, while the
claimed `max` policy would yield `1`. -/
theorem risk_score_not_floor_at_one :
    ¬ fetch_road_risk_score 1 (1 / 2) = 1 / max ((1 : ℚ) / 2) 1 := by
  have hmax : max ((1 : ℚ) / 2) 1 = 1 := max_eq_right (by norm_num)
  norm_num [fetch_road_risk_score, replaceZeroOne, hmax]

/-- Claim C5 as amended: segment risk is the numerator (the segment event
count in `fetch_road_risk`; the joined region rate, or `0` when the join
failed, in `road_segment_risk`) divided by `length_m` with an exact zero
length replaced by `1` — not a floor at `1`: lengths strictly between `0` and
`1` divide as-is.  The denominator is never `0`, so no division error arises,
and a zero-length segment's risk equals its numerator. -/
theorem risk_score_replace_zero_policy (events length_m : ℚ) (pred : Option ℚ) :
    fetch_road_risk_score events length_m
      = events / (if length_m = 0 then 1 else length_m) ∧
    road_segment_risk_score pred length_m
      = pred.getD 0 / (if length_m = 0 then 1 else length_m) ∧
    replaceZeroOne length_m ≠ 0 ∧
    fetch_road_risk_score events 0 = events ∧
    road_segment_risk_score pred 0 = pred.getD 0 := by
  refine ⟨rfl, rfl, ?_, by simp [fetch_road_risk_score, replaceZeroOne],
    by simp [road_segment_risk_score, replaceZeroOne]⟩
  by_cases h : length_m = 0 <;> simp [replaceZeroOne, h]

/-! ### Embedding of `src/pathfinder/risk_tsp.py` -/

/-- One row of the dataframe consumed by `distance_matrix`: the midpoint
coordinates and the risk score of a road segment.  Columns of `df` not read
by `distance_matrix` (`road_id`, `events`, `length_m`) are omitted. -/
structure SegRow where
  lon : ℚ
  lat : ℚ
  risk : ℚ
deriving DecidableEq, Inhabited, Repr

/-- The weighted pair entry of `distance_matrix` (`risk_tsp.py`, lines 56-58):
`d = haversine(lon_i, lat_i, lon_j, lat_j); d *= 1 + alpha * (risk_i + risk_j) / 2`.
`haversine` (lines 16-23) is a transcendental floating-point function
(`sin`, `cos`, `asin`, `sqrt` on WGS84 degrees); it has no exact executable
embedding and is modelled by the function parameter `geod`, applied exactly
where the source applies `haversine`. -/
def dm_entry (geod : ℚ → ℚ → ℚ → ℚ → ℚ) (df : List SegRow) (alpha : ℚ) (i j : ℕ) : ℚ :=
  geod (df.getD i default).lon (df.getD i default).lat
      (df.getD j default).lon (df.getD j default).lat
    * (1 + alpha * ((df.getD i default).risk + (df.getD j default).risk) / 2)

/-- `distance_matrix(df, alpha)` (`risk_tsp.py`, lines 50-59): an `n × n`
matrix with zero diagonal where for each `i < j` the value `dm_entry i j` is
computed once and stored at both `(i, j)` and `(j, i)`
(`mat[i][j] = mat[j][i] = d` in the source, which computes it only for
`i < j`). -/
def distance_matrix (geod : ℚ → ℚ → ℚ → ℚ → ℚ) (df : List SegRow)
    (alpha : ℚ := 1) : List (List ℚ) :=
  (List.range df.length).map (fun i => (List.range df.length).map (fun j =>
    if i < j then dm_entry geod df alpha i j
    else if j < i then dm_entry geod df alpha j i
    else 0))

/-- The matrix weight `mat[last][j]` as the greedy solver reads it (both
indices in range whenever it is consulted). -/
def matWt (mat : List (List ℚ)) (i j : ℕ) : ℚ :=
  (mat.getD i []).getD j 0

/-- Python `min(choices, key=lambda x: x[1])` on the nonempty list
`x :: xs`: the first element with minimal second component (ties keep the
earlier element). -/
def pickMin (x : ℕ × ℚ) (xs : List (ℕ × ℚ)) : ℕ × ℚ :=
  xs.foldl (fun best y => if y.2 < best.2 then y else best) x

/-- The `for _ in range(n - 1)` loop of `nearest_neighbor` (`risk_tsp.py`,
lines 67-75), with `k` remaining iterations.  Per iteration:
`last = order[-1]`; `choices = [(j, mat[last][j]) for j in range(n) if not
visited[j]]`; `if not choices: break`; `nxt = min(choices, key=...)[0]`;
append `nxt` and mark it visited.  `none` models a raised IndexError
(`mat[last]`, `mat[last][j]` or `visited[nxt] = True` out of range). -/
def nnLoop (mat : List (List ℚ)) (n : ℕ) :
    ℕ → List ℕ → List Bool → Option (List ℕ)
  | 0, order, _ => some order
  | k + 1, order, visited =>
    match order.getLast? with
    | none => none
    | some last =>
      match ((List.range n).filter (fun j => !(visited.getD j false))).mapM
          (fun j => mat[last]?.bind (fun row => row[j]?.map (fun v => (j, v)))) with
      | none => none
      | some [] => some order
      | some (c :: cs) =>
        if (pickMin c cs).1 < visited.length then
          nnLoop mat n k (order ++ [(pickMin c cs).1])
            (visited.set (pickMin c cs).1 true)
        else none

/-- `nearest_neighbor(mat, start=0)` (`risk_tsp.py`, lines 62-76):
`n = len(mat)`; `visited = [False] * n`; `order = [start]`;
`visited[start] = True` (an IndexError — `none` — when `start` is not a
valid index, in particular whenever `n = 0`); then the greedy loop.
A negative Python `start` would index from the end; `start` is modelled as
a natural number as every call site and claim uses `0 ≤ start < n`. -/
def nearest_neighbor (mat : List (List ℚ)) (start : ℕ := 0) : Option (List ℕ) :=
  let n := mat.length
  let visited := List.replicate n false
  if start < visited.length then
    nnLoop mat n (n - 1) [start] (visited.set start true)
  else none

/-- `ortools_tsp(mat)` (`risk_tsp.py`, lines 79-101).  The OR-Tools runtime
is external to the repository and is modelled by two parameters:
`available` is the module flag `_ORTOOLS_AVAILABLE` (set by the
`try: import ... except:` at lines 7-11), and `solve mat` stands for
`RoutingModel` construction plus `SolveWithParameters` plus the
route-extraction loop, returning `none` when the solver produces no feasible
assignment (`if assignment:` false).  When unavailable, or when there is no
assignment, the source returns `nearest_neighbor(mat)`. -/
def ortools_tsp (available : Bool) (solve : List (List ℚ) → Option (List ℕ))
    (mat : List (List ℚ)) : Option (List ℕ) :=
  if !available then nearest_neighbor mat
  else
    match solve mat with
    | some order => some order
    | none => nearest_neighbor mat

/-- The `method` argument of `plan_route` (`risk_tsp.py`, line 104): the
source compares it with the string literals `"ortools"` and `"auto"`; any
other string selects the greedy branch and is modelled by `other`. -/
inductive RouteMethod where
  | auto
  | ortools
  | other
deriving DecidableEq, BEq, Repr

/-- The solver selection `method == "ortools" or (method == "auto" and
_ORTOOLS_AVAILABLE)` of `plan_route` (`risk_tsp.py`, line 107). -/
def methodSelectsOrtools (method : RouteMethod) (available : Bool) : Bool :=
  (method == RouteMethod.ortools) || ((method == RouteMethod.auto) && available)

/-- The route-order computation of `plan_route` (`risk_tsp.py`, lines
104-112): `ortools_tsp(mat)` when selected, else `nearest_neighbor(mat)`.
`plan_route` passes no start index anywhere, so both branches use the
default `start = 0`. -/
def plan_route_order (available : Bool) (solve : List (List ℚ) → Option (List ℕ))
    (mat : List (List ℚ)) (method : RouteMethod) : Option (List ℕ) :=
  if methodSelectsOrtools method available then ortools_tsp available solve mat
  else nearest_neighbor mat

/-! ### Specification predicates for the greedy route -/

/-- `nxt` is a valid greedy successor of `last` when the nodes in `seen`
are already visited: `nxt` is an unvisited in-range node of minimal matrix
weight from `last`, and among the minimisers it has the lowest index. -/
def IsGreedySucc (mat : List (List ℚ)) (n : ℕ) (seen : List ℕ) (last nxt : ℕ) : Prop :=
  nxt < n ∧ nxt ∉ seen ∧
  ∀ j, j < n → j ∉ seen →
    matWt mat last nxt ≤ matWt mat last j ∧
    (matWt mat last j = matWt mat last nxt → nxt ≤ j)

/-- The tail `rest` of a route continues greedily from `last`, the visited
prefix being `seen`. -/
def GreedyTail (mat : List (List ℚ)) (n : ℕ) :
    List ℕ → ℕ → List ℕ → Prop
  | _, _, [] => True
  | seen, last, nxt :: rest =>
    IsGreedySucc mat n seen last nxt ∧ GreedyTail mat n (seen ++ [nxt]) nxt rest

/-! ### Helper lemmas for the greedy solver -/

theorem pickMin_spec :
    ∀ (xs : List (ℕ × ℚ)) (x : ℕ × ℚ),
      (∀ y ∈ xs, x.1 < y.1) →
      List.Pairwise (fun a b : ℕ × ℚ => a.1 < b.1) xs →
      (pickMin x xs = x ∨ (pickMin x xs ∈ xs ∧ (pickMin x xs).2 < x.2)) ∧
      ∀ y ∈ x :: xs, (pickMin x xs).2 ≤ y.2 ∧
        (y.2 = (pickMin x xs).2 → (pickMin x xs).1 ≤ y.1) := by
  intro xs
  induction xs with
  | nil =>
    intro x _ _
    refine ⟨Or.inl rfl, ?_⟩
    intro y hy
    rw [List.mem_singleton] at hy
    subst hy
    exact ⟨le_refl _, fun _ => le_refl _⟩
  | cons y ys ih =>
    intro x hx hp
    obtain ⟨hyys, hpys⟩ := List.pairwise_cons.mp hp
    have hstep : pickMin x (y :: ys) = pickMin (if y.2 < x.2 then y else x) ys := by
      simp [pickMin]
    by_cases hcond : y.2 < x.2
    · -- the head replaces the accumulator
      rw [hstep, if_pos hcond]
      obtain ⟨hmem, hall⟩ := ih y hyys hpys
      constructor
      · rcases hmem with h | h
        · exact Or.inr ⟨by rw [h]; exact List.mem_cons_self y ys, by rw [h]; exact hcond⟩
        · exact Or.inr ⟨List.mem_cons_of_mem y h.1, lt_trans h.2 hcond⟩
      · intro z hz
        rcases List.mem_cons.mp hz with hzx | hzmem
        · subst hzx
          have hm_le : (pickMin y ys).2 ≤ y.2 := (hall y (List.mem_cons_self y ys)).1
          have hm_lt : (pickMin y ys).2 < z.2 := lt_of_le_of_lt hm_le hcond
          exact ⟨le_of_lt hm_lt, fun he => absurd he (ne_of_gt hm_lt)⟩
        · exact hall z hzmem
    · -- the accumulator survives the head
      rw [hstep, if_neg hcond]
      have hxys : ∀ z ∈ ys, x.1 < z.1 := fun z hz => hx z (List.mem_cons_of_mem y hz)
      obtain ⟨hmem, hall⟩ := ih x hxys hpys
      have hxy : x.2 ≤ y.2 := le_of_not_lt hcond
      constructor
      · rcases hmem with h | h
        · exact Or.inl h
        · exact Or.inr ⟨List.mem_cons_of_mem y h.1, h.2⟩
      · intro z hz
        rcases List.mem_cons.mp hz with hzx | hzmem
        · subst hzx
          exact hall z (List.mem_cons_self z ys)
        · rcases List.mem_cons.mp hzmem with hzy | hzys
          · subst hzy
            have hm_le : (pickMin x ys).2 ≤ x.2 := (hall x (List.mem_cons_self x ys)).1
            refine ⟨le_trans hm_le hxy, fun he => ?_⟩
            rcases hmem with h | h
            · rw [h]
              exact le_of_lt (hx z (List.mem_cons_self z ys))
            · exact absurd he (ne_of_gt (lt_of_lt_of_le h.2 hxy))
          · exact hall z (List.mem_cons_of_mem x hzys)

theorem mapM_eq_map_of_forall {α β : Type} (f : α → Option β) (g : α → β) :
    ∀ js : List α, (∀ j ∈ js, f j = some (g j)) → js.mapM f = some (js.map g) := by
  intro js
  induction js with
  | nil => intro _; rfl
  | cons a as ih =>
    intro h
    rw [List.mapM_cons, h a (List.mem_cons_self a as),
      ih (fun j hj => h j (List.mem_cons_of_mem a hj))]
    rfl

theorem mem_of_nodup_length {l : List ℕ} {n : ℕ} (hnd : l.Nodup)
    (hlen : l.length = n) (hlt : ∀ j ∈ l, j < n) : ∀ j, j < n → j ∈ l := by
  have hsub : l ⊆ List.range n := fun a ha => List.mem_range.mpr (hlt a ha)
  have hperm : l.Perm (List.range n) :=
    (List.subperm_of_subset hnd hsub).perm_of_length_le (by simp [hlen])
  intro j hj
  exact hperm.symm.subset (List.mem_range.mpr hj)

theorem getD_set_bool (l : List Bool) (i j : ℕ) (b : Bool)
    (hj : j < l.length) :
    (l.set i b).getD j false = if i = j then b else l.getD j false := by
  have hj2 : j < (l.set i b).length := by simpa using hj
  rw [List.getD_eq_getElem?_getD, List.getElem?_eq_getElem hj2, List.getElem_set]
  by_cases h : i = j
  · simp [h]
  · simp only [if_neg h, Option.getD_some]
    rw [List.getD_eq_getElem?_getD, List.getElem?_eq_getElem hj]
    rfl

theorem getD_of_lt {α : Type} (l : List α) (j : ℕ) (d : α) (h : j < l.length) :
    l.getD j d = l[j] := by
  rw [List.getD_eq_getElem?_getD, List.getElem?_eq_getElem h]
  rfl

theorem nnLoop_spec (mat : List (List ℚ)) (n : ℕ)
    (hmat : mat.length = n) (hrows : ∀ row ∈ mat, n ≤ row.length) :
    ∀ (k : ℕ) (order : List ℕ) (visited : List Bool),
      visited.length = n →
      order ≠ [] → order.Nodup → (∀ j ∈ order, j < n) →
      (∀ j, j < n → (visited.getD j false = true ↔ j ∈ order)) →
      order.length + k = n →
      ∃ ext, nnLoop mat n k order visited = some (order ++ ext) ∧
        (order ++ ext).length = n ∧ (order ++ ext).Nodup ∧
        (∀ j, j < n → j ∈ order ++ ext) ∧ (∀ j ∈ order ++ ext, j < n) ∧
        GreedyTail mat n order (order.getLastD 0) ext := by
  intro k
  induction k with
  | zero =>
    intro order visited hvl hne hnd hlt heqv hlen
    refine ⟨[], ?_, ?_, ?_, ?_, ?_, ?_⟩
    · rw [List.append_nil]; rfl
    · rw [List.append_nil]; omega
    · rw [List.append_nil]; exact hnd
    · intro j hj
      rw [List.append_nil]
      exact mem_of_nodup_length hnd (by omega) hlt j hj
    · intro j hj
      rw [List.append_nil] at hj
      exact hlt j hj
    · simp only [GreedyTail]
  | succ k ih =>
    intro order visited hvl hne hnd hlt heqv hlen
    have hgl : order.getLast? = some (order.getLast hne) :=
      List.getLast?_eq_getLast order hne
    have hlastd : order.getLastD 0 = order.getLast hne := by
      rw [List.getLastD_eq_getLast?, hgl]
      rfl
    have hlastlt : order.getLast hne < n := hlt _ (List.getLast_mem hne)
    have hlastmat : order.getLast hne < mat.length := by omega
    have hrowget : mat[order.getLast hne]? = some (mat.getD (order.getLast hne) []) := by
      rw [getD_of_lt mat _ [] hlastmat]
      exact List.getElem?_eq_getElem hlastmat
    have hrowmem : mat.getD (order.getLast hne) [] ∈ mat := by
      rw [getD_of_lt mat _ [] hlastmat]
      exact List.getElem_mem hlastmat
    have hrowlen : n ≤ (mat.getD (order.getLast hne) []).length := hrows _ hrowmem
    have hjsmem : ∀ j, j ∈ (List.range n).filter (fun j => !(visited.getD j false)) ↔
        j < n ∧ j ∉ order := by
      intro j
      rw [List.mem_filter, List.mem_range]
      constructor
      · rintro ⟨hj, hb⟩
        refine ⟨hj, fun hmem => ?_⟩
        have hv := (heqv j hj).mpr hmem
        rw [hv] at hb
        simp at hb
      · rintro ⟨hj, hnm⟩
        refine ⟨hj, ?_⟩
        have hv : visited.getD j false ≠ true := fun h => hnm ((heqv j hj).mp h)
        simp only [Bool.not_eq_true] at hv
        rw [hv]
        rfl
    have hjspair : List.Pairwise (· < ·)
        ((List.range n).filter (fun j => !(visited.getD j false))) :=
      (List.pairwise_lt_range n).filter _
    have hmapm : ((List.range n).filter (fun j => !(visited.getD j false))).mapM
        (fun j => mat[order.getLast hne]?.bind
          (fun row => row[j]?.map (fun v => (j, v))))
        = some (((List.range n).filter (fun j => !(visited.getD j false))).map
            (fun j => (j, (mat.getD (order.getLast hne) []).getD j 0))) := by
      apply mapM_eq_map_of_forall
      intro j hj
      have hjn : j < n := ((hjsmem j).mp hj).1
      have hjr : j < (mat.getD (order.getLast hne) []).length :=
        lt_of_lt_of_le hjn hrowlen
      rw [hrowget, Option.some_bind, List.getElem?_eq_getElem hjr,
        getD_of_lt _ _ 0 hjr]
      rfl
    have hjs_ne : (List.range n).filter (fun j => !(visited.getD j false)) ≠ [] := by
      have hex : ∃ j, j < n ∧ j ∉ order := by
        by_contra hcon
        push_neg at hcon
        have hsub : List.range n ⊆ order := fun a ha => hcon a (List.mem_range.mp ha)
        have hle := (List.subperm_of_subset (List.nodup_range n) hsub).length_le
        rw [List.length_range] at hle
        omega
      obtain ⟨j0, hj0, hj0n⟩ := hex
      intro hemp
      have := (hjsmem j0).mpr ⟨hj0, hj0n⟩
      rw [hemp] at this
      exact absurd this (List.not_mem_nil j0)
    obtain ⟨j1, js2, hjseq⟩ :
        ∃ a l, (List.range n).filter (fun j => !(visited.getD j false)) = a :: l := by
      cases hc : (List.range n).filter (fun j => !(visited.getD j false)) with
      | nil => exact absurd hc hjs_ne
      | cons a l => exact ⟨a, l, rfl⟩
    have hmapeq : ((List.range n).filter (fun j => !(visited.getD j false))).map
        (fun j => (j, (mat.getD (order.getLast hne) []).getD j 0))
        = (j1, (mat.getD (order.getLast hne) []).getD j1 0)
          :: js2.map (fun j => (j, (mat.getD (order.getLast hne) []).getD j 0)) := by
      rw [hjseq]
      rfl
    have hcpair : List.Pairwise (fun a b : ℕ × ℚ => a.1 < b.1)
        ((j1, (mat.getD (order.getLast hne) []).getD j1 0)
          :: js2.map (fun j => (j, (mat.getD (order.getLast hne) []).getD j 0))) := by
      rw [← hmapeq]
      exact hjspair.map _ (fun a b h => h)
    obtain ⟨hspec1, hspec2⟩ := pickMin_spec
      (js2.map (fun j => (j, (mat.getD (order.getLast hne) []).getD j 0)))
      ((j1, (mat.getD (order.getLast hne) []).getD j1 0))
      (fun y hy => (List.pairwise_cons.mp hcpair).1 y hy)
      (List.pairwise_cons.mp hcpair).2
    set c := ((j1, (mat.getD (order.getLast hne) []).getD j1 0) : ℕ × ℚ) with hc
    set cs := js2.map (fun j => (j, (mat.getD (order.getLast hne) []).getD j 0)) with hcs
    have hmmem : pickMin c cs ∈ c :: cs := by
      rcases hspec1 with h | h
      · rw [h]; exact List.mem_cons_self c cs
      · exact List.mem_cons_of_mem c h.1
    have hmg : pickMin c cs = ((pickMin c cs).1,
          (mat.getD (order.getLast hne) []).getD (pickMin c cs).1 0)
        ∧ (pickMin c cs).1 ∈ (List.range n).filter (fun j => !(visited.getD j false)) := by
      rw [hc, hcs, ← hmapeq] at hmmem
      obtain ⟨a, haj, hag⟩ := List.mem_map.mp hmmem
      have ha1 : (pickMin c cs).1 = a := by rw [← hag]
      constructor
      · rw [ha1, ← hag]
      · rw [ha1]; exact haj
    have hnxtn : (pickMin c cs).1 < n := ((hjsmem _).mp hmg.2).1
    have hnxtno : (pickMin c cs).1 ∉ order := ((hjsmem _).mp hmg.2).2
    have hguard : (pickMin c cs).1 < visited.length := by omega
    have hvl2 : (visited.set (pickMin c cs).1 true).length = n := by
      rw [List.length_set]; exact hvl
    have hne2 : order ++ [(pickMin c cs).1] ≠ [] := by simp
    have hnd2 : (order ++ [(pickMin c cs).1]).Nodup := by
      rw [List.nodup_append]
      refine ⟨hnd, List.nodup_singleton _, ?_⟩
      intro a ha hb
      rw [List.mem_singleton] at hb
      subst hb
      exact hnxtno ha
    have hlt2 : ∀ j ∈ order ++ [(pickMin c cs).1], j < n := by
      intro j hj
      rcases List.mem_append.mp hj with h | h
      · exact hlt j h
      · rw [List.mem_singleton] at h
        subst h
        exact hnxtn
    have heqv2 : ∀ j, j < n →
        ((visited.set (pickMin c cs).1 true).getD j false = true
          ↔ j ∈ order ++ [(pickMin c cs).1]) := by
      intro j hj
      rw [getD_set_bool visited (pickMin c cs).1 j true (by omega)]
      by_cases h : (pickMin c cs).1 = j
      · subst h
        simp
      · rw [if_neg h, heqv j hj, List.mem_append, List.mem_singleton]
        constructor
        · exact Or.inl
        · rintro (h2 | h2)
          · exact h2
          · exact absurd h2.symm h
    have hlen2 : (order ++ [(pickMin c cs).1]).length + k = n := by
      rw [List.length_append, List.length_singleton]
      omega
    obtain ⟨ext2, hrun, hl2, hnd3, hmem3, hbnd3, hgt⟩ :=
      ih (order ++ [(pickMin c cs).1]) (visited.set (pickMin c cs).1 true)
        hvl2 hne2 hnd2 hlt2 heqv2 hlen2
    have hassoc : (order ++ [(pickMin c cs).1]) ++ ext2
        = order ++ (pickMin c cs).1 :: ext2 := by
      rw [List.append_assoc]
      rfl
    refine ⟨(pickMin c cs).1 :: ext2, ?_, ?_, ?_, ?_, ?_, ?_⟩
    · show nnLoop mat n (k + 1) order visited = _
      rw [nnLoop, hgl]
      simp only [hmapm, hmapeq, ← hc, ← hcs]
      rw [if_pos hguard, hrun, hassoc]
    · rw [← hassoc]; exact hl2
    · rw [← hassoc]; exact hnd3
    · intro j hj
      rw [← hassoc]
      exact hmem3 j hj
    · intro j hj
      rw [← hassoc] at hj
      exact hbnd3 j hj
    · show GreedyTail mat n order (order.getLastD 0) ((pickMin c cs).1 :: ext2)
      rw [GreedyTail]
      constructor
      · -- the chosen node is a valid greedy successor
        refine ⟨hnxtn, hnxtno, ?_⟩
        intro j hj hjo
        have hjjs : j ∈ (List.range n).filter (fun j => !(visited.getD j false)) :=
          (hjsmem j).mpr ⟨hj, hjo⟩
        have hjc : ((j, (mat.getD (order.getLast hne) []).getD j 0) : ℕ × ℚ) ∈ c :: cs := by
          rw [hc, hcs, ← hmapeq]
          exact List.mem_map_of_mem _ hjjs
        have h2 := hspec2 _ hjc
        have hmwn : matWt mat (order.getLastD 0) (pickMin c cs).1 = (pickMin c cs).2 := by
          rw [hlastd, matWt]
          conv_rhs => rw [hmg.1]
        have hmwj : matWt mat (order.getLastD 0) j
            = (mat.getD (order.getLast hne) []).getD j 0 := by
          rw [hlastd, matWt]
        rw [hmwn, hmwj]
        exact ⟨h2.1, fun he => h2.2 he⟩
      · -- the recursive call continues greedily
        have hlast2 : (order ++ [(pickMin c cs).1]).getLastD 0 = (pickMin c cs).1 :=
          List.getLastD_concat 0 _ order
        rw [hlast2] at hgt
        exact hgt

theorem nnLoop_prefix (mat : List (List ℚ)) (n : ℕ) :
    ∀ (k : ℕ) (order : List ℕ) (visited : List Bool) (res : List ℕ),
      nnLoop mat n k order visited = some res → ∃ ext, res = order ++ ext := by
  intro k
  induction k with
  | zero =>
    intro order visited res h
    simp only [nnLoop, Option.some_inj] at h
    exact ⟨[], by rw [List.append_nil, h]⟩
  | succ k ih =>
    intro order visited res h
    rw [nnLoop] at h
    split at h
    · exact Option.noConfusion h
    · split at h
      · exact Option.noConfusion h
      · rw [Option.some_inj] at h
        exact ⟨[], by rw [List.append_nil]; exact h.symm⟩
      · split at h
        · rename_i c cs heq hcond
          obtain ⟨ext, hext⟩ := ih _ _ _ h
          refine ⟨(pickMin c cs).1 :: ext, ?_⟩
          rw [hext, List.append_assoc, List.singleton_append]
        · exact Option.noConfusion h

/-- Shared run lemma: on a matrix with at least one row, all rows of length
at least `n`, and a valid start index, the greedy solver completes without
an error and returns a greedy route through all `n` nodes. -/
theorem nearest_neighbor_run (mat : List (List ℚ)) (start : ℕ)
    (hN : 1 ≤ mat.length) (hrows : ∀ row ∈ mat, mat.length ≤ row.length)
    (hstart : start < mat.length) :
    ∃ ext, nearest_neighbor mat start = some (start :: ext) ∧
      (start :: ext).length = mat.length ∧ (start :: ext).Nodup ∧
      (∀ j, j < mat.length → j ∈ start :: ext) ∧
      (∀ j ∈ start :: ext, j < mat.length) ∧
      GreedyTail mat mat.length [start] start ext := by
  have hvl : ((List.replicate mat.length false).set start true).length = mat.length := by
    rw [List.length_set, List.length_replicate]
  have heqv : ∀ j, j < mat.length →
      (((List.replicate mat.length false).set start true).getD j false = true
        ↔ j ∈ [start]) := by
    intro j hj
    rw [getD_set_bool _ _ _ _ (by rw [List.length_replicate]; omega)]
    by_cases h : start = j
    · subst h
      simp
    · rw [if_neg h]
      have hrep : (List.replicate mat.length false).getD j false = false := by
        rw [getD_of_lt _ _ _ (by rw [List.length_replicate]; omega)]
        exact List.getElem_replicate ..
      rw [hrep, List.mem_singleton]
      constructor
      · intro hfalse
        exact absurd hfalse (by simp)
      · intro hj2
        exact absurd hj2.symm h
  obtain ⟨ext, hrun, hl, hnd, hmem, hbnd, hgt⟩ :=
    nnLoop_spec mat mat.length rfl hrows (mat.length - 1) [start]
      ((List.replicate mat.length false).set start true)
      hvl (by simp) (List.nodup_singleton start)
      (by intro j hj; rw [List.mem_singleton] at hj; omega)
      heqv (by simp; omega)
  rw [List.singleton_append] at hrun hl hnd hmem hbnd
  refine ⟨ext, ?_, hl, hnd, hmem, hbnd, hgt⟩
  rw [nearest_neighbor]
  rw [if_pos (by rw [List.length_replicate]; exact hstart)]
  exact hrun

theorem nearest_neighbor_head (mat : List (List ℚ)) (start : ℕ) (res : List ℕ)
    (h : nearest_neighbor mat start = some res) : res.head? = some start := by
  rw [nearest_neighbor] at h
  by_cases hs : start < (List.replicate mat.length false).length
  · rw [if_pos hs] at h
    obtain ⟨ext, hext⟩ := nnLoop_prefix mat mat.length (mat.length - 1) [start] _ res h
    rw [hext]
    rfl
  · rw [if_neg hs] at h
    exact Option.noConfusion h

/-! ### Claims C2, C6, C7, C9, C10 (route solver) -/

/-- Claim C2: on every complete, symmetric, non-negative `N × N` matrix with
`N ≥ 1` and every start index below `N`, `nearest_neighbor` returns a
permutation of `0..N-1` that begins at the start index and in which each
successive node is the unvisited node of minimal matrix weight from the last
visited node, ties broken by the lowest node index. -/
theorem nearest_neighbor_greedy_permutation (mat : List (List ℚ)) (start : ℕ)
    (hN : 1 ≤ mat.length)
    (hsq : ∀ row ∈ mat, row.length = mat.length)
    (hsym : ∀ i, i < mat.length → ∀ j, j < mat.length → matWt mat i j = matWt mat j i)
    (hpos : ∀ i, i < mat.length → ∀ j, j < mat.length → 0 ≤ matWt mat i j)
    (hstart : start < mat.length) :
    ∃ ext, nearest_neighbor mat start = some (start :: ext) ∧
      (start :: ext).Perm (List.range mat.length) ∧
      GreedyTail mat mat.length [start] start ext := by
  obtain ⟨ext, hrun, hl, hnd, hmem, hbnd, hgt⟩ :=
    nearest_neighbor_run mat start hN
      (fun row hr => le_of_eq (hsq row hr).symm) hstart
  refine ⟨ext, hrun, ?_, hgt⟩
  refine ((List.subperm_of_subset (List.nodup_range mat.length)
    (fun a ha => hmem a (List.mem_range.mp ha))).perm_of_length_le ?_).symm
  rw [hl, List.length_range]

/-- Witness for C2 on the symmetric non-negative matrix `[[0,1],[1,0]]`
with start `0`. -/
theorem nearest_neighbor_greedy_permutation_witness :
    ∃ ext, nearest_neighbor [[(0 : ℚ), 1], [1, 0]] 0 = some (0 :: ext) ∧
      (0 :: ext).Perm (List.range 2) ∧
      GreedyTail [[(0 : ℚ), 1], [1, 0]] 2 [0] 0 ext :=
  nearest_neighbor_greedy_permutation [[(0 : ℚ), 1], [1, 0]] 0
    (by decide) (by decide) (by decide) (by decide) (by decide)

/-- Claim C6: the claim says an empty matrix yields an empty route without
error; the code instead raises an IndexError (here `none`), because
`visited[start] = True` indexes the empty list `[False] * 0` for every
`start`, including the default `0`. -/
theorem nearest_neighbor_empty_matrix_errors :
    ∀ start, nearest_neighbor ([] : List (List ℚ)) start = none :=
  fun _ => rfl

/-- Claim C7, counterexample: `nearest_neighbor` raises no ValidationError —
or any error — on a non-symmetric matrix: on `[[0,1],[2,0]]` it simply
returns the route `[0, 1]`.  (No ValidationError type exists anywhere in the
repository.) -/
theorem nearest_neighbor_asymmetric_no_error :
    nearest_neighbor [[(0 : ℚ), 1], [2, 0]] 0 = some [0, 1] := rfl

/-- Claim C7 as amended: the solver performs no matrix validation.  Any
matrix with at least one row, all of whose rows have length at least `N`
(symmetric or not, square or not), is processed by the greedy scan and
returns a route without raising; a ValidationError is never raised (no such
mechanism exists — a matrix whose rows are shorter than `N` instead hits a
plain IndexError when such an entry is read). -/
theorem nearest_neighbor_no_validation (mat : List (List ℚ)) (start : ℕ)
    (hN : 1 ≤ mat.length) (hrows : ∀ row ∈ mat, mat.length ≤ row.length)
    (hstart : start < mat.length) :
    (nearest_neighbor mat start).isSome = true := by
  obtain ⟨ext, hrun, _⟩ := nearest_neighbor_run mat start hN hrows hstart
  rw [hrun]
  rfl

/-- Witness for amended C7: the non-symmetric matrix `[[0,1],[2,0]]` is
accepted and solved. -/
theorem nearest_neighbor_no_validation_witness :
    (nearest_neighbor [[(0 : ℚ), 1], [2, 0]] 0).isSome = true :=
  nearest_neighbor_no_validation [[(0 : ℚ), 1], [2, 0]] 0
    (by decide) (by decide) (by decide)

/-- Claim C9, counterexample: the claim asserts that for every input matrix
the fallback returns the nearest-neighbor result without raising an error;
on the empty matrix the fallback inherits `nearest_neighbor`'s IndexError
(`none`), so an error is raised. -/
theorem ortools_tsp_empty_fallback_errors :
    ortools_tsp false (fun _ => none) ([] : List (List ℚ)) = none := rfl

/-- Claim C9 as amended: when OR-Tools is unavailable, or available but
without a feasible assignment, `ortools_tsp` computes exactly
`nearest_neighbor(mat)` — the same route, or the same error on the empty
matrix; in particular on every non-empty matrix whose rows have length at
least `N` it returns the nearest-neighbor route without error. -/
theorem ortools_tsp_fallback_eq_nearest_neighbor
    (solve : List (List ℚ) → Option (List ℕ)) (mat : List (List ℚ))
    (hns : solve mat = none) :
    ortools_tsp false solve mat = nearest_neighbor mat ∧
    ortools_tsp true solve mat = nearest_neighbor mat ∧
    (1 ≤ mat.length → (∀ row ∈ mat, mat.length ≤ row.length) →
      (ortools_tsp true solve mat).isSome = true) := by
  have h2 : ortools_tsp true solve mat = nearest_neighbor mat := by
    rw [ortools_tsp, hns]
    rfl
  refine ⟨rfl, h2, ?_⟩
  intro h1 hrows
  rw [h2]
  exact nearest_neighbor_no_validation mat 0 h1 hrows (by omega)

/-- Witness for amended C9 at the matrix `[[0,1],[1,0]]` with an
unsuccessful external solver. -/
theorem ortools_tsp_fallback_eq_nearest_neighbor_witness :
    ortools_tsp false (fun _ => none) [[(0 : ℚ), 1], [1, 0]]
      = nearest_neighbor [[(0 : ℚ), 1], [1, 0]] ∧
    ortools_tsp true (fun _ => none) [[(0 : ℚ), 1], [1, 0]]
      = nearest_neighbor [[(0 : ℚ), 1], [1, 0]] ∧
    (1 ≤ ([[(0 : ℚ), 1], [1, 0]] : List (List ℚ)).length →
      (∀ row ∈ ([[(0 : ℚ), 1], [1, 0]] : List (List ℚ)),
        ([[(0 : ℚ), 1], [1, 0]] : List (List ℚ)).length ≤ row.length) →
      (ortools_tsp true (fun _ => none) [[(0 : ℚ), 1], [1, 0]]).isSome = true) :=
  ortools_tsp_fallback_eq_nearest_neighbor (fun _ => none) [[(0 : ℚ), 1], [1, 0]] rfl

/-- Claim C10: for every non-empty matrix, any route returned by
`ortools_tsp` begins at node `0`.  The exact-solver branch fixes the depot to
node `0` (`RoutingModel(n, 1, 0)` and extraction from `routing.Start(0)`),
modelled by the hypothesis that the external solver's routes start at `0`;
the fallback branch is `nearest_neighbor` at its default start `0`; and
`plan_route` exposes no start parameter, so both of its branches also start
at `0`. -/
theorem ortools_tsp_starts_at_zero (available : Bool)
    (solve : List (List ℚ) → Option (List ℕ)) (mat : List (List ℚ))
    (hne : mat ≠ [])
    (hdepot : ∀ o, solve mat = some o → o.head? = some 0) :
    (∀ o, ortools_tsp available solve mat = some o → o.head? = some 0) ∧
    (∀ method o, plan_route_order available solve mat method = some o →
      o.head? = some 0) := by
  have hnn : ∀ o, nearest_neighbor mat = some o → o.head? = some 0 :=
    fun o h => nearest_neighbor_head mat 0 o h
  have hot : ∀ o, ortools_tsp available solve mat = some o → o.head? = some 0 := by
    intro o h
    cases available with
    | false => exact hnn o h
    | true =>
      cases hs : solve mat with
      | none =>
        have he : ortools_tsp true solve mat = nearest_neighbor mat := by
          rw [ortools_tsp, hs]
          rfl
        rw [he] at h
        exact hnn o h
      | some r =>
        have he : ortools_tsp true solve mat = some r := by
          rw [ortools_tsp, hs]
          rfl
        rw [he] at h
        rw [Option.some_inj] at h
        rw [← h]
        exact hdepot r hs
  refine ⟨hot, ?_⟩
  intro method o h
  rw [plan_route_order] at h
  by_cases hm : methodSelectsOrtools method available = true
  · rw [if_pos hm] at h
    exact hot o h
  · rw [if_neg hm] at h
    exact hnn o h

/-- Witness for C10: with OR-Tools unavailable and the matrix
`[[0,1],[1,0]]`, every returned route heads with node `0`. -/
theorem ortools_tsp_starts_at_zero_witness :
    (∀ o, ortools_tsp false (fun _ => none) [[(0 : ℚ), 1], [1, 0]] = some o →
      o.head? = some 0) ∧
    (∀ method o,
      plan_route_order false (fun _ => none) [[(0 : ℚ), 1], [1, 0]] method = some o →
      o.head? = some 0) :=
  ortools_tsp_starts_at_zero false (fun _ => none) [[(0 : ℚ), 1], [1, 0]]
    (by simp) (fun o h => Option.noConfusion h)

/-! ### Claim C3 (distance matrix) -/

theorem getD_map_range {β : Type} (g : ℕ → β) (n i : ℕ) (hi : i < n) (d : β) :
    ((List.range n).map g).getD i d = g i := by
  have hlen : i < ((List.range n).map g).length := by
    rw [List.length_map, List.length_range]
    exact hi
  rw [getD_of_lt _ _ _ hlen, List.getElem_map]
  congr 1
  exact List.getElem_range ..

/-- Claim C3: for every list of scored segments and every risk weight, the
matrix built by `distance_matrix` holds, for each pair `i ≠ j`, the value
`geodesic(i,j) * (1 + risk_weight * (risk_i + risk_j) / 2)` (`dm_entry`)
stored identically at `(i,j)` and `(j,i)`, and `0` on the diagonal.  The
hypothesis `hgeod` records that the geodesic base distance is symmetric in
its two points, which the haversine formula satisfies. -/
theorem distance_matrix_entries (geod : ℚ → ℚ → ℚ → ℚ → ℚ) (df : List SegRow)
    (w : ℚ) (hgeod : ∀ a b c d, geod a b c d = geod c d a b)
    (i : ℕ) (hi : i < df.length) (j : ℕ) (hj : j < df.length) :
    (((distance_matrix geod df w).getD i []).getD j 0
      = if i = j then 0 else dm_entry geod df w i j) ∧
    ((distance_matrix geod df w).getD i []).getD j 0
      = ((distance_matrix geod df w).getD j []).getD i 0 := by
  have hread : ∀ a b, a < df.length → b < df.length →
      ((distance_matrix geod df w).getD a []).getD b 0
        = (if a < b then dm_entry geod df w a b
           else if b < a then dm_entry geod df w b a else 0) := by
    intro a b ha hb
    rw [distance_matrix, getD_map_range _ _ _ ha, getD_map_range _ _ _ hb]
  have hsymm_entry : ∀ a b, dm_entry geod df w a b = dm_entry geod df w b a := by
    intro a b
    rw [dm_entry, dm_entry, hgeod]
    ring
  rw [hread i j hi hj, hread j i hj hi]
  rcases lt_trichotomy i j with h | h | h
  · rw [if_pos h, if_neg (lt_asymm h), if_pos h, if_neg (by omega : ¬ i = j)]
    exact ⟨rfl, rfl⟩
  · subst h
    simp
  · rw [if_neg (lt_asymm h), if_pos h, if_pos h, if_neg (by omega : ¬ i = j)]
    exact ⟨hsymm_entry j i, rfl⟩

/-- Witness for C3 at a symmetric quadratic base distance, two segments and
risk weight `1`. -/
theorem distance_matrix_entries_witness :
    (((distance_matrix (fun a b c d => (a - c) * (a - c) + (b - d) * (b - d))
        ([⟨0, 0, 0⟩, ⟨3, 4, 1⟩] : List SegRow) 1).getD 0 []).getD 1 0
      = if (0 : ℕ) = 1 then 0
        else dm_entry (fun a b c d => (a - c) * (a - c) + (b - d) * (b - d))
          ([⟨0, 0, 0⟩, ⟨3, 4, 1⟩] : List SegRow) 1 0 1) ∧
    ((distance_matrix (fun a b c d => (a - c) * (a - c) + (b - d) * (b - d))
        ([⟨0, 0, 0⟩, ⟨3, 4, 1⟩] : List SegRow) 1).getD 0 []).getD 1 0
      = ((distance_matrix (fun a b c d => (a - c) * (a - c) + (b - d) * (b - d))
        ([⟨0, 0, 0⟩, ⟨3, 4, 1⟩] : List SegRow) 1).getD 1 []).getD 0 0 :=
  distance_matrix_entries (fun a b c d => (a - c) * (a - c) + (b - d) * (b - d))
    ([⟨0, 0, 0⟩, ⟨3, 4, 1⟩] : List SegRow) 1 (by intro a b c d; ring)
    0 (by decide) 1 (by decide)

end Pathfinder
